import Mathlib

/-!
Shallow embedding of the segmentation core of the EDF_Toolkit repository
(files `core/event_processor.py`, `core/edf_segmentor.py`, `config/settings.py`)
together with theorems settling the frozen specification claims.

Python floats are modelled as rationals (`ℚ`); sample indices and event
codes as naturals; Python dictionaries as association lists in insertion
order; Python sets/`dict.keys()` views as lists of keys.
-/

namespace EDF

/-! ## Decimal rendering of naturals

`f"{base}_{counter}"` in the source renders the counter in decimal via the
runtime's `Nat.repr`.  We prove `Nat.repr` injective, which the allocator
correctness arguments need. -/

/-- The decimal digit list of `n`, most significant first.  Extensionally
equal to `Nat.toDigits 10 n` (proved below). -/
def decDigits (n : ℕ) : List Char :=
  if h : n < 10 then [Nat.digitChar n]
  else decDigits (n / 10) ++ [Nat.digitChar (n % 10)]
decreasing_by
  exact Nat.div_lt_self (by omega) (by omega)

/-- Reading a digit list back as a number (decimal evaluation). -/
def decVal (l : List Char) : ℕ :=
  l.foldl (fun a c => 10 * a + (c.toNat - '0'.toNat)) 0

theorem digitChar_val {d : ℕ} (h : d < 10) :
    (Nat.digitChar d).toNat - '0'.toNat = d := by
  interval_cases d <;> rfl

theorem foldl_decDigits (n : ℕ) : ∀ a : ℕ,
    (decDigits n).foldl (fun a c => 10 * a + (c.toNat - '0'.toNat)) a =
      a * 10 ^ (decDigits n).length + n := by
  induction n using Nat.strong_induction_on with
  | _ n ih =>
    intro a
    by_cases h : n < 10
    · rw [decDigits, dif_pos h]
      simp only [List.foldl_cons, List.foldl_nil, List.length_cons, List.length_nil,
        digitChar_val h, pow_one]
      omega
    · rw [decDigits, dif_neg h]
      rw [List.foldl_append]
      rw [ih (n / 10) (Nat.div_lt_self (by omega) (by omega)) a]
      simp only [List.foldl_cons, List.foldl_nil, List.length_append, List.length_cons,
        List.length_nil]
      rw [digitChar_val (Nat.mod_lt _ (by omega))]
      have hmod : 10 * (a * 10 ^ (decDigits (n / 10)).length + n / 10) + n % 10 =
          a * (10 ^ (decDigits (n / 10)).length * 10) + (10 * (n / 10) + n % 10) := by ring
      rw [hmod, Nat.div_add_mod]
      rw [pow_succ]

theorem decVal_decDigits (n : ℕ) : decVal (decDigits n) = n := by
  have := foldl_decDigits n 0
  simpa [decVal] using this

theorem decDigits_injective : Function.Injective decDigits := by
  intro m n h
  have : decVal (decDigits m) = decVal (decDigits n) := by rw [h]
  rwa [decVal_decDigits, decVal_decDigits] at this

theorem toDigitsCore_eq_decDigits :
    ∀ (f n : ℕ) (ds : List Char), 0 < f → n < 10 ^ f →
      Nat.toDigitsCore 10 f n ds = decDigits n ++ ds := by
  intro f
  induction f with
  | zero => intro n ds h; omega
  | succ f ih =>
    intro n ds _ hlt
    show (if n / 10 = 0 then Nat.digitChar (n % 10) :: ds
          else Nat.toDigitsCore 10 f (n / 10) (Nat.digitChar (n % 10) :: ds)) =
        decDigits n ++ ds
    by_cases h10 : n / 10 = 0
    · have hn : n < 10 := by omega
      rw [if_pos h10, decDigits, dif_pos hn]
      have : n % 10 = n := Nat.mod_eq_of_lt hn
      rw [this]
      rfl
    · have hn : ¬ n < 10 := by omega
      rw [if_neg h10, decDigits, dif_neg hn]
      have hf : 0 < f := by
        by_contra hf0
        have : f = 0 := by omega
        subst this
        have : n < 10 := by simpa using hlt
        omega
      have hdiv : n / 10 < 10 ^ f := by
        have : n < 10 ^ f * 10 := by rw [← pow_succ]; exact hlt
        omega
      rw [ih (n / 10) (Nat.digitChar (n % 10) :: ds) hf hdiv]
      simp

theorem repr_eq_decDigits (n : ℕ) : Nat.repr n = (decDigits n).asString := by
  show (Nat.toDigits 10 n).asString = (decDigits n).asString
  unfold Nat.toDigits
  rw [toDigitsCore_eq_decDigits (n + 1) n [] (by omega)]
  · simp
  · calc n < 10 ^ n := Nat.lt_pow_self (by omega) n
    _ ≤ 10 ^ (n + 1) := Nat.pow_le_pow_right (by omega) (by omega)

theorem nat_repr_injective : Function.Injective Nat.repr := by
  intro m n h
  rw [repr_eq_decDigits, repr_eq_decDigits] at h
  have : (decDigits m) = (decDigits n) := by
    have := congrArg String.data h
    simpa [List.asString] using this
  exact decDigits_injective this

/-! ## The segment-name allocator

Both `EventProcessor.generate_segment_name` variants in the source share
the same `while seg_name in existing_names:` loop producing
`f"{base_name}_{counter}"` with `counter` counting up from 1.  The Python
loop is unbounded; we embed it with fuel `existing.length`, which the
pigeonhole lemmas below prove sufficient (the fuel-exhausted fallback is
never reached). -/

/-- `f"{base}_{counter}"` -/
def fmtName (base : String) (counter : ℕ) : String :=
  base ++ "_" ++ Nat.repr counter

/-- The body of the `while seg_name in existing_names:` loop. -/
def gsnAux (base : String) (existing : List String) : ℕ → ℕ → String
  | 0, c => fmtName base c
  | f + 1, c =>
    if fmtName base c ∈ existing then gsnAux base existing f (c + 1)
    else fmtName base c

theorem fmtName_injective (base : String) :
    Function.Injective (fmtName base) := by
  intro i j h
  have hdata := congrArg String.data h
  simp only [fmtName, String.data_append] at hdata
  have h2 := List.append_cancel_left hdata
  have h4 : Nat.repr i = Nat.repr j := by
    cases hri : Nat.repr i
    cases hrj : Nat.repr j
    rw [hri, hrj] at h2
    exact congrArg String.mk (by simpa using h2)
  exact nat_repr_injective h4

theorem fmtName_ne_base (base : String) (c : ℕ) : fmtName base c ≠ base := by
  intro h
  have hlen := congrArg String.length h
  rw [fmtName, String.length_append, String.length_append] at hlen
  have h1 : ("_" : String).length = 1 := rfl
  rw [h1] at hlen
  omega

theorem gsnAux_not_mem (base : String) (existing : List String) :
    ∀ (f c : ℕ), (∃ j, c ≤ j ∧ j < c + f ∧ fmtName base j ∉ existing) →
      gsnAux base existing f c ∉ existing := by
  intro f
  induction f with
  | zero =>
    intro c ⟨j, h1, h2, _⟩
    omega
  | succ f ih =>
    intro c ⟨j, h1, h2, h3⟩
    show (if fmtName base c ∈ existing then gsnAux base existing f (c + 1)
          else fmtName base c) ∉ existing
    by_cases hc : fmtName base c ∈ existing
    · rw [if_pos hc]
      apply ih
      refine ⟨j, ?_, by omega, h3⟩
      rcases Nat.eq_or_lt_of_le h1 with rfl | hlt
      · exact absurd hc h3
      · omega
    · rwa [if_neg hc]

/-- Among the counters `1, …, existing.length + 1` one produces a name not
in `existing` (pigeonhole: the candidate names and the base are pairwise
distinct strings). -/
theorem exists_free_counter (base : String) (existing : List String)
    (hbase : base ∈ existing) :
    ∃ j, 1 ≤ j ∧ j < 1 + existing.length ∧ fmtName base j ∉ existing := by
  by_contra hno
  push_neg at hno
  set L := existing.length with hL
  have hsub : insert base ((Finset.range L).image (fun i => fmtName base (i + 1)))
      ⊆ existing.toFinset := by
    intro x hx
    rcases Finset.mem_insert.mp hx with rfl | hx
    · exact List.mem_toFinset.mpr hbase
    · rcases Finset.mem_image.mp hx with ⟨i, hi, rfl⟩
      have hiL := Finset.mem_range.mp hi
      exact List.mem_toFinset.mpr (hno (i + 1) (by omega) (by omega))
  have hcard : (insert base ((Finset.range L).image
      (fun i => fmtName base (i + 1)))).card = L + 1 := by
    rw [Finset.card_insert_of_not_mem, Finset.card_image_of_injective,
      Finset.card_range]
    · intro i j hij
      have := fmtName_injective base hij
      omega
    · intro hmem
      rcases Finset.mem_image.mp hmem with ⟨i, _, hi⟩
      exact fmtName_ne_base base (i + 1) hi
  have hle : L + 1 ≤ existing.toFinset.card := hcard ▸ Finset.card_le_card hsub
  have := existing.toFinset_card_le
  omega

/-- The allocator never returns a name that is already used (shared core of
both `generate_segment_name` variants). -/
theorem gsn_loop_not_mem (base : String) (existing : List String) :
    (if base ∈ existing then gsnAux base existing existing.length 1 else base)
      ∉ existing := by
  by_cases hbase : base ∈ existing
  · rw [if_pos hbase]
    rcases exists_free_counter base existing hbase with ⟨j, h1, h2, h3⟩
    exact gsnAux_not_mem base existing existing.length 1 ⟨j, h1, by omega, h3⟩
  · rwa [if_neg hbase]

/-- The loop returns the candidate for the *first* free counter. -/
theorem gsnAux_first_free (base : String) (existing : List String) :
    ∀ (f c : ℕ), (∃ j, c ≤ j ∧ j < c + f ∧ fmtName base j ∉ existing) →
      ∃ k, c ≤ k ∧ gsnAux base existing f c = fmtName base k ∧
        fmtName base k ∉ existing ∧
        ∀ j, c ≤ j → j < k → fmtName base j ∈ existing := by
  intro f
  induction f with
  | zero =>
    intro c ⟨j, h1, h2, _⟩
    omega
  | succ f ih =>
    intro c ⟨j, h1, h2, h3⟩
    show ∃ k, c ≤ k ∧
      (if fmtName base c ∈ existing then gsnAux base existing f (c + 1)
       else fmtName base c) = fmtName base k ∧ _
    by_cases hc : fmtName base c ∈ existing
    · rw [if_pos hc]
      have hj : c + 1 ≤ j := by
        rcases Nat.eq_or_lt_of_le h1 with rfl | hlt
        · exact absurd hc h3
        · omega
      rcases ih (c + 1) ⟨j, hj, by omega, h3⟩ with ⟨k, hk1, hk2, hk3, hk4⟩
      refine ⟨k, by omega, hk2, hk3, fun j' hj1 hj2 => ?_⟩
      rcases Nat.eq_or_lt_of_le hj1 with rfl | hlt
      · exact hc
      · exact hk4 j' hlt hj2
    · rw [if_neg hc]
      exact ⟨c, le_refl c, rfl, hc, fun j' h1' h2' => by omega⟩

/-! ## Python string primitives used by the source -/

/-- Python's `needle in hay` substring test on the char lists. -/
def listIsInfix (needle : List Char) : List Char → Bool
  | [] => needle.isEmpty
  | c :: t => needle.isPrefixOf (c :: t) || listIsInfix needle t

/-- Python's `needle in hay` on strings. -/
def strIn (needle hay : String) : Bool :=
  listIsInfix needle.data hay.data

/-- Python `str.isspace` characters (`\s` of the `re` module), restricted to
the ASCII range; no label in the repository carries non-ASCII whitespace. -/
def isPySpace (c : Char) : Bool :=
  c = ' ' || c = '\t' || c = '\n' || c = '\r' || c = '\x0b' || c = '\x0c'

/-- Python `str.strip()`. -/
def pyStrip (s : String) : String :=
  ⟨((s.data.dropWhile isPySpace).reverse.dropWhile isPySpace).reverse⟩

/-- Scan for the closing bracket of a non-greedy `\[.*?\]` / `\(.*?\)`
match: the first occurrence of `close` with no newline before it (`.`
does not match a newline).  Returns the remainder after the bracket. -/
def findClose (close : Char) : List Char → Option (List Char)
  | [] => none
  | c :: rest =>
    if c = close then some rest
    else if c = '\n' then none
    else findClose close rest

theorem findClose_length (close : Char) :
    ∀ (l r : List Char), findClose close l = some r → r.length < l.length := by
  intro l
  induction l with
  | nil => intro r h; exact absurd h (by simp [findClose])
  | cons c rest ih =>
    intro r h
    rw [findClose] at h
    by_cases hc : c = close
    · rw [if_pos hc] at h
      cases h
      simp
    · rw [if_neg hc] at h
      by_cases hn : c = '\n'
      · rw [if_pos hn] at h; cases h
      · rw [if_neg hn] at h
        have := ih r h
        simp
        omega

/-- Fuel-bounded body of `removeBrackets`.  Every step consumes at least
one input character (`findClose` returns a strict suffix, see
`findClose_length`), so fuel `l.length` is enough and the fuel-exhausted
branch is never reached on the initial call. -/
def removeBracketsGo : ℕ → List Char → List Char
  | _, [] => []
  | 0, l => l
  | f + 1, c :: rest =>
    if c = '[' then
      match findClose ']' rest with
      | some rest' => removeBracketsGo f rest'
      | none => c :: removeBracketsGo f rest
    else if c = '(' then
      match findClose ')' rest with
      | some rest' => removeBracketsGo f rest'
      | none => c :: removeBracketsGo f rest
    else c :: removeBracketsGo f rest

/-- `re.sub(r'\[.*?\]|\(.*?\)', '', name)`: repeatedly delete the leftmost
non-greedy bracketed group. -/
def removeBrackets (l : List Char) : List Char :=
  removeBracketsGo l.length l

/-- `re.search(r'(\d+)\s*Гц', name)`: leftmost maximal digit run followed
by optional whitespace and the literal `Гц`; returns the digit group.
(The regex engine's backtracking cannot produce any other match: a shorter
digit prefix leaves a digit where `Г` is required, and a shorter
whitespace run leaves a whitespace character there.) -/
def findFreq : List Char → Option (List Char)
  | [] => none
  | c :: rest =>
    if c.isDigit then
      let ds := (c :: rest).takeWhile (·.isDigit)
      let after := ((c :: rest).dropWhile (·.isDigit)).dropWhile isPySpace
      if ("Гц".data).isPrefixOf after then some ds
      else findFreq rest
    else findFreq rest

/-- `re.search(r'Тон\s*(\d+)\s*Гц', name)`, same conventions as
`findFreq`; returns the digit group. -/
def findTone : List Char → Option (List Char)
  | [] => none
  | c :: rest =>
    if ("Тон".data).isPrefixOf (c :: rest) then
      let after := ((c :: rest).drop ("Тон".data).length).dropWhile isPySpace
      let ds := after.takeWhile (·.isDigit)
      let tail := (after.dropWhile (·.isDigit)).dropWhile isPySpace
      if ds ≠ [] ∧ ("Гц".data).isPrefixOf tail then some ds
      else findTone rest
    else findTone rest

/-! ## core/event_processor.py : class EventProcessor -/

namespace EventProcessor

def EXCLUDED_NAMES : List String :=
  ["stimFlash", "Артефакт", "Начало печати", "Окончание печати",
   "Эпилептиформная активность", "Комплекс \"острая волна - медленная волна\"",
   "Множественные спайки и острые волны", "Разрыв записи"]

/-- The translation dict, in insertion order (Python dicts iterate in
insertion order). -/
def TRANSLATIONS : List (String × String) :=
  [("Фоновая запись", "Baseline"),
   ("Открывание глаз", "EyesOpen"),
   ("Закрывание глаз", "EyesClosed"),
   ("Без стимуляции", "Rest"),
   ("Фотостимуляция", "PhoticStim"),
   ("После фотостимуляции", "PostPhotic"),
   ("Встроенный фотостимулятор", "Photic"),
   ("Встроенный слуховой стимулятор", "Auditory"),
   ("Остановка стимуляции", "StimOff"),
   ("Гипервентиляция", "Hypervent"),
   ("После гипервентиляции", "PostHypervent"),
   ("Бодрствование", "Awake")]

/-- The `for ru_name, en_name in cls.TRANSLATIONS.items():` loop body of
`_clean_event_name`. -/
def translateLoop (name cleaned_name : String) :
    List (String × String) → Option String
  | [] => none
  | (ru_name, en_name) :: rest =>
    if strIn ru_name cleaned_name then
      if strIn "Photic" en_name || strIn "Auditory" en_name then
        match findTone name.data, findFreq name.data with
        | some ds, _ => some (en_name ++ ⟨ds⟩ ++ "Hz")
        | none, some ds => some (en_name ++ ⟨ds⟩ ++ "Hz")
        | none, none => some en_name
      else some en_name
    else translateLoop name cleaned_name rest

/-- `EventProcessor._clean_event_name` (returns `none` for excluded
names). -/
def _clean_event_name (name : String) : Option String :=
  let cleaned_name : String := pyStrip ⟨removeBrackets name.data⟩
  if cleaned_name ∈ EXCLUDED_NAMES ∨ name ∈ EXCLUDED_NAMES then none
  else if cleaned_name = "" then some (if name = "" then "Unknown" else name)
  else
    match translateLoop name cleaned_name TRANSLATIONS with
    | some r => some r
    | none => some cleaned_name

/-- `EventProcessor.get_event_name` (core/event_processor.py version):
reverse lookup in the code table, `"Unknown"` when absent, then clean. -/
def get_event_name (evt_code : ℕ) (ev_id : List (String × ℕ)) : Option String :=
  let name := ((ev_id.find? (fun p => p.2 == evt_code)).map Prod.fst).getD "Unknown"
  _clean_event_name name

/-- `EventProcessor.generate_segment_name` (core/event_processor.py
version): a `None` base maps to `"Unknown"`, then the counter loop. -/
def generate_segment_name (base_name : Option String)
    (existing_names : List String) : String :=
  let base := base_name.getD "Unknown"
  if base ∈ existing_names then gsnAux base existing_names existing_names.length 1
  else base

end EventProcessor

/-! ## config/settings.py -/

namespace settings

def TABLE_FORMAT : String := "pretty"

def MIN_SEGMENT_DURATION : ℚ := 5

def MAX_WORKERS : ℕ := 4

end settings

/-! ## core/edf_segmentor.py

The module defines its own `EventProcessor` class (shadowing the one from
`core/event_processor.py`, which it does not import): `get_event_name`
returns the raw matched label with no cleaning, and
`generate_segment_name` has no `None` handling. -/

namespace EdfSegmentor

namespace EventProcessor

/-- `EventProcessor.get_event_name` (edf_segmentor.py local version): raw
reverse lookup, no cleaning. -/
def get_event_name (evt_code : ℕ) (ev_id : List (String × ℕ)) : String :=
  ((ev_id.find? (fun p => p.2 == evt_code)).map Prod.fst).getD "Unknown"

/-- `EventProcessor.generate_segment_name` (edf_segmentor.py local
version): the counter loop on a plain string base. -/
def generate_segment_name (base_name : String)
    (existing_names : List String) : String :=
  if base_name ∈ existing_names then
    gsnAux base_name existing_names existing_names.length 1
  else base_name

end EventProcessor

/-- An entry of `self.events` as produced by
`mne.events_from_annotations`: `event[0]` is the sample index and
`event[2]` the integer event id (`event[1]` is never read by the
segmentor). -/
structure MNEEvent where
  sample : ℕ
  id : ℕ
  deriving DecidableEq

/-- A `(event[0], event[2], evt_name)` triple of `filtered_events` /
`grouped_events`. -/
structure Ev where
  sample : ℕ
  id : ℕ
  name : String
  deriving DecidableEq

/-- The loaded recording: `self.raw` together with the `self.events` /
`self.event_id` fields that `load_metadata` populates alongside it.
`sfreq` is `raw.info['sfreq']`, `times_last` is `raw.times[-1]`. -/
structure Raw where
  sfreq : ℚ
  times_last : ℚ
  events : List MNEEvent
  event_id : List (String × ℕ)
  deriving DecidableEq

/-- A value of `self.seg_dict`: the per-segment dict.  `data` records the
`(tmin, tmax)` arguments of `raw.copy().crop(...)` (an opaque payload
reference; `tmax = none` means crop to the recording end). -/
structure Segment where
  start_time : ℚ
  end_time : ℚ
  current_event : String
  next_event : String
  data : ℚ × Option ℚ
  deriving DecidableEq

/-- The mutable state of an `EDFSegmentor` instance that `process()`
reads: `self.seg_dict` (an insertion-ordered dict, modelled as an
association list) and `self.raw` with its attendant event fields. -/
structure SegState where
  seg_dict : List (String × Segment)
  raw : Option Raw
  deriving DecidableEq

/-- Python dict assignment `d[k] = v`: replace in place if the key
exists, otherwise append. -/
def dictInsert (d : List (String × Segment)) (k : String) (v : Segment) :
    List (String × Segment) :=
  if d.any (fun p => p.1 = k) then
    d.map (fun p => if p.1 = k then (k, v) else p)
  else d ++ [(k, v)]

/-- `name_mapping` of `_simplify_segment_name`. -/
def name_mapping : List (String × String) :=
  [("Фоновая запись", "Background"),
   ("Открывание глаз", "Eyes Open"),
   ("Закрывание глаз", "Eyes Closed"),
   ("Фотостимуляция", "Photic Stim"),
   ("После фотостимуляции", "Post-Photic"),
   ("Без стимуляции", "Rest"),
   ("Встроенный фотостимулятор оба, 50 мс, 1 Гц", "Photic 1Hz"),
   ("Встроенный фотостимулятор оба, 50 мс, 2 Гц", "Photic 2Hz"),
   ("Встроенный фотостимулятор оба, 50 мс, 4 Гц", "Photic 4Hz"),
   ("Встроенный фотостимулятор оба, 50 мс, 6 Гц", "Photic 6Hz"),
   ("Встроенный фотостимулятор оба, 50 мс, 8 Гц", "Photic 8Hz"),
   ("Встроенный фотостимулятор оба, 50 мс, 10 Гц", "Photic 10Hz"),
   ("Встроенный фотостимулятор оба, 50 мс, 12 Гц", "Photic 12Hz"),
   ("Встроенный фотостимулятор оба, 50 мс, 14 Гц", "Photic 14Hz"),
   ("Встроенный фотостимулятор оба, 30 мс, 16 Гц", "Photic 16Hz"),
   ("Встроенный фотостимулятор оба, 30 мс, 18 Гц", "Photic 18Hz"),
   ("Встроенный фотостимулятор оба, 30 мс, 20 Гц", "Photic 20Hz"),
   ("Встроенный фотостимулятор оба, 15 мс, 50 Гц", "Photic 50Hz"),
   ("Встроенный фотостимулятор оба, 10 мс, 60 Гц", "Photic 60Hz"),
   ("Встроенный слуховой стимулятор оба, 110 дБ, 10 мс, Тон 1000 Гц, Сжатие, 1 Гц",
    "Auditory 1KHz"),
   ("Остановка стимуляции", "Stim End"),
   ("Гипервентиляция", "Hyperventilation"),
   ("Гипервентиляция 1 мин.", "Hypervent 1min"),
   ("Гипервентиляция 2 мин.", "Hypervent 2min"),
   ("Гипервентиляция 3 мин.", "Hypervent 3min"),
   ("После гипервентиляции", "Post-Hypervent"),
   ("Окончание После гипервентиляции", "Post-Hypervent End"),
   ("Разрыв записи", "Recording Gap")]

/-- `EDFSegmentor._simplify_segment_name`:
`name.split('(')[0].split('[')[0].strip()` and a lookup with that same
stripped value as default. -/
def _simplify_segment_name (original_name : String) : String :=
  let name : String :=
    pyStrip ⟨(original_name.data.takeWhile (· ≠ '(')).takeWhile (· ≠ '[')⟩
  let dflt : String :=
    pyStrip ⟨(name.data.takeWhile (· ≠ '(')).takeWhile (· ≠ '[')⟩
  ((name_mapping.find? (fun p => p.1 = name)).map Prod.snd).getD dflt

/-- The `filtered_events` loop of `process()`: drop events with id 1
(`# skip stimFlash`), attach the raw looked-up name. -/
def filtered_events (events : List MNEEvent) (ev_id : List (String × ℕ)) :
    List Ev :=
  (events.filter (fun e => e.id ≠ 1)).map
    (fun e => ⟨e.sample, e.id, EventProcessor.get_event_name e.id ev_id⟩)

/-- The `grouped_events` while-loop of `process()`: a
`"Фотостимуляция"`-labelled event immediately followed by a
`"Встроенный фотостимулятор"`-labelled one collapses into a single event
at the first one's time carrying the second one's id and name. -/
def groupEvents : List Ev → List Ev
  | [] => []
  | [e] => [e]
  | e1 :: e2 :: rest =>
    if strIn "Фотостимуляция" e1.name && strIn "Встроенный фотостимулятор" e2.name then
      ⟨e1.sample, e2.id, e2.name⟩ :: groupEvents rest
    else e1 :: groupEvents (e2 :: rest)

/-- The `for i in range(len(grouped_events) - 1):` loop of `process()`:
adjacent-pair segments, skipping pairs shorter than the duration
threshold. -/
def segLoop (sfreq min_dur : ℚ) : List (String × Segment) → List Ev →
    List (String × Segment)
  | d, e1 :: e2 :: rest =>
    let start_time : ℚ := (e1.sample : ℚ) / sfreq
    let end_time : ℚ := (e2.sample : ℚ) / sfreq
    if end_time - start_time < min_dur then segLoop sfreq min_dur d (e2 :: rest)
    else
      let simplified_name := _simplify_segment_name e1.name
      let next_event := _simplify_segment_name e2.name
      let seg_name := EventProcessor.generate_segment_name simplified_name
        (d.map Prod.fst)
      segLoop sfreq min_dur
        (dictInsert d seg_name
          ⟨start_time, end_time, simplified_name, next_event,
            (start_time, some end_time)⟩)
        (e2 :: rest)
  | d, _ => d

/-- The `if len(grouped_events) > 0:` trailing block of `process()`: a
final segment from the last grouped event to the recording end, stored
with no duration check. -/
def addTrailing (sfreq times_last : ℚ) (gs : List Ev)
    (d : List (String × Segment)) : List (String × Segment) :=
  match gs.getLast? with
  | none => d
  | some e =>
    let last_time : ℚ := (e.sample : ℚ) / sfreq
    let simplified_name := _simplify_segment_name e.name
    let seg_name := EventProcessor.generate_segment_name simplified_name
      (d.map Prod.fst)
    dictInsert d seg_name
      ⟨last_time, times_last, simplified_name, "End", (last_time, none)⟩

/-- `EDFSegmentor.process()` with the duration threshold as an explicit
parameter; returns the new `seg_dict` and the diagnostic messages written
to the output widget, or the raised exception message. -/
def processWith (min_dur : ℚ) (st : SegState) :
    Except String (List (String × Segment) × List String) :=
  match st.raw with
  | none => .error "Please select an EDF file for processing first."
  | some raw =>
    if raw.events.length < 2 then
      .ok (st.seg_dict,
        ["Starting processing...", "Insufficient events to extract segments."])
    else
      let fe := filtered_events raw.events raw.event_id
      if fe.length < 2 then
        .ok (st.seg_dict,
          ["Starting processing...", "No valid events after filtering."])
      else
        let ge := groupEvents fe
        let d1 := segLoop raw.sfreq min_dur st.seg_dict ge
        let d2 := addTrailing raw.sfreq raw.times_last ge d1
        .ok (d2, ["Starting processing..."])

/-- `EDFSegmentor.process()` as shipped: threshold
`settings.MIN_SEGMENT_DURATION`. -/
def process (st : SegState) :
    Except String (List (String × Segment) × List String) :=
  processWith settings.MIN_SEGMENT_DURATION st

/-- Discriminator for the exception case of the embedded `process()`. -/
def isError {α : Type} (r : Except String α) : Bool :=
  match r with
  | .error _ => true
  | .ok _ => false

/-! ### Verification infrastructure for `process()` -/

/-- The segment values (in insertion order) produced by the adjacent-pair
loop, independent of the dictionary state. -/
def loopSegVals (sfreq min_dur : ℚ) : List Ev → List Segment
  | e1 :: e2 :: rest =>
    if (e2.sample : ℚ) / sfreq - (e1.sample : ℚ) / sfreq < min_dur then
      loopSegVals sfreq min_dur (e2 :: rest)
    else
      ⟨(e1.sample : ℚ) / sfreq, (e2.sample : ℚ) / sfreq,
        _simplify_segment_name e1.name, _simplify_segment_name e2.name,
        ((e1.sample : ℚ) / sfreq, some ((e2.sample : ℚ) / sfreq))⟩ ::
        loopSegVals sfreq min_dur (e2 :: rest)
  | _ => []

/-- The segment values produced by the trailing block. -/
def trailVals (sfreq times_last : ℚ) (gs : List Ev) : List Segment :=
  match gs.getLast? with
  | none => []
  | some e =>
    [⟨(e.sample : ℚ) / sfreq, times_last, _simplify_segment_name e.name, "End",
      ((e.sample : ℚ) / sfreq, none)⟩]

theorem generate_segment_name_fresh (base : String) (keys : List String) :
    EventProcessor.generate_segment_name base keys ∉ keys := by
  unfold EventProcessor.generate_segment_name
  exact gsn_loop_not_mem base keys

theorem dictInsert_eq_append {d : List (String × Segment)} {k : String}
    {v : Segment} (h : k ∉ d.map Prod.fst) : dictInsert d k v = d ++ [(k, v)] := by
  unfold dictInsert
  rw [if_neg]
  intro hany
  rcases List.any_eq_true.mp hany with ⟨p, hp, he⟩
  exact h (List.mem_map.mpr ⟨p, hp, of_decide_eq_true he⟩)

theorem nodup_append_singleton {l : List String} {a : String}
    (hl : l.Nodup) (ha : a ∉ l) : (l ++ [a]).Nodup := by
  simp [List.nodup_append, hl, ha]

theorem segLoop_append (sfreq min_dur : ℚ) :
    ∀ (gs : List Ev) (d : List (String × Segment)),
      ∃ t, segLoop sfreq min_dur d gs = d ++ t ∧
        t.map Prod.snd = loopSegVals sfreq min_dur gs ∧
        ((d.map Prod.fst).Nodup → ((d ++ t).map Prod.fst).Nodup) := by
  intro gs
  induction gs with
  | nil =>
    intro d
    exact ⟨[], by simp [segLoop], by simp [loopSegVals], fun h => by simpa⟩
  | cons e1 rest ih =>
    intro d
    cases rest with
    | nil =>
      exact ⟨[], by simp [segLoop], by simp [loopSegVals], fun h => by simpa⟩
    | cons e2 rest2 =>
      by_cases hshort :
          (e2.sample : ℚ) / sfreq - (e1.sample : ℚ) / sfreq < min_dur
      · rcases ih d with ⟨t, h1, h2, h3⟩
        refine ⟨t, ?_, ?_, h3⟩
        · rw [segLoop, if_pos hshort]; exact h1
        · rw [loopSegVals, if_pos hshort]; exact h2
      · have hfresh : EventProcessor.generate_segment_name
            (_simplify_segment_name e1.name) (d.map Prod.fst) ∉ d.map Prod.fst :=
          generate_segment_name_fresh _ _
        have hins := dictInsert_eq_append (v :=
          (⟨(e1.sample : ℚ) / sfreq, (e2.sample : ℚ) / sfreq,
            _simplify_segment_name e1.name, _simplify_segment_name e2.name,
            ((e1.sample : ℚ) / sfreq, some ((e2.sample : ℚ) / sfreq))⟩ : Segment))
          hfresh
        rcases ih (dictInsert d
          (EventProcessor.generate_segment_name (_simplify_segment_name e1.name)
            (d.map Prod.fst))
          ⟨(e1.sample : ℚ) / sfreq, (e2.sample : ℚ) / sfreq,
            _simplify_segment_name e1.name, _simplify_segment_name e2.name,
            ((e1.sample : ℚ) / sfreq, some ((e2.sample : ℚ) / sfreq))⟩) with
          ⟨t', h1, h2, h3⟩
        rw [hins] at h1 h3
        refine ⟨(EventProcessor.generate_segment_name (_simplify_segment_name e1.name)
            (d.map Prod.fst),
          (⟨(e1.sample : ℚ) / sfreq, (e2.sample : ℚ) / sfreq,
            _simplify_segment_name e1.name, _simplify_segment_name e2.name,
            ((e1.sample : ℚ) / sfreq, some ((e2.sample : ℚ) / sfreq))⟩ : Segment)) ::
          t', ?_, ?_, ?_⟩
        · rw [segLoop, if_neg hshort]
          show segLoop sfreq min_dur
            (dictInsert d
              (EventProcessor.generate_segment_name (_simplify_segment_name e1.name)
                (d.map Prod.fst))
              ⟨(e1.sample : ℚ) / sfreq, (e2.sample : ℚ) / sfreq,
                _simplify_segment_name e1.name, _simplify_segment_name e2.name,
                ((e1.sample : ℚ) / sfreq, some ((e2.sample : ℚ) / sfreq))⟩)
            (e2 :: rest2) = _
          rw [hins, h1, List.append_assoc]
          rfl
        · rw [loopSegVals, if_neg hshort]
          simpa using h2
        · intro hnd
          rw [← List.singleton_append, ← List.append_assoc]
          apply h3
          rw [List.map_append]
          exact nodup_append_singleton hnd hfresh

theorem addTrailing_append (sfreq times_last : ℚ) (gs : List Ev)
    (d : List (String × Segment)) :
    ∃ t, addTrailing sfreq times_last gs d = d ++ t ∧
      t.map Prod.snd = trailVals sfreq times_last gs ∧
      ((d.map Prod.fst).Nodup → ((d ++ t).map Prod.fst).Nodup) := by
  cases hlast : gs.getLast? with
  | none =>
    exact ⟨[], by simp [addTrailing, hlast], by simp [trailVals, hlast],
      fun h => by simpa⟩
  | some e =>
    have hfresh : EventProcessor.generate_segment_name
        (_simplify_segment_name e.name) (d.map Prod.fst) ∉ d.map Prod.fst :=
      generate_segment_name_fresh _ _
    have hins := dictInsert_eq_append (v :=
      (⟨(e.sample : ℚ) / sfreq, times_last, _simplify_segment_name e.name, "End",
        ((e.sample : ℚ) / sfreq, none)⟩ : Segment)) hfresh
    refine ⟨[(EventProcessor.generate_segment_name (_simplify_segment_name e.name)
        (d.map Prod.fst),
      (⟨(e.sample : ℚ) / sfreq, times_last, _simplify_segment_name e.name, "End",
        ((e.sample : ℚ) / sfreq, none)⟩ : Segment))], ?_, ?_, ?_⟩
    · show (match gs.getLast? with
        | none => d
        | some e =>
          dictInsert d
            (EventProcessor.generate_segment_name (_simplify_segment_name e.name)
              (d.map Prod.fst))
            ⟨(e.sample : ℚ) / sfreq, times_last, _simplify_segment_name e.name,
              "End", ((e.sample : ℚ) / sfreq, none)⟩) = _
      rw [hlast]
      exact hins
    · simp [trailVals, hlast]
    · intro hnd
      rw [List.map_append]
      exact nodup_append_singleton hnd hfresh

theorem loopSegVals_floor (sfreq min_dur : ℚ) :
    ∀ (gs : List Ev), ∀ s ∈ loopSegVals sfreq min_dur gs,
      min_dur ≤ s.end_time - s.start_time := by
  intro gs
  induction gs using loopSegVals.induct sfreq min_dur with
  | case1 e1 e2 rest hshort ih =>
    intro s hs
    rw [loopSegVals, if_pos hshort] at hs
    exact ih s hs
  | case2 e1 e2 rest hshort ih =>
    intro s hs
    rw [loopSegVals, if_neg hshort] at hs
    rcases List.mem_cons.mp hs with rfl | hs
    · simpa using not_lt.mp hshort
    · exact ih s hs
  | case3 t ht =>
    intro s hs
    cases t with
    | nil => simp [loopSegVals] at hs
    | cons a t2 =>
      cases t2 with
      | nil => simp [loopSegVals] at hs
      | cons b t3 => exact absurd rfl (ht a b t3)

theorem loopSegVals_mem (sfreq min_dur : ℚ) :
    ∀ (gs : List Ev), ∀ s ∈ loopSegVals sfreq min_dur gs,
      ∃ e1 ∈ gs, ∃ e2 ∈ gs,
        s.start_time = (e1.sample : ℚ) / sfreq ∧
        s.end_time = (e2.sample : ℚ) / sfreq ∧
        s.current_event = _simplify_segment_name e1.name ∧
        s.next_event = _simplify_segment_name e2.name := by
  intro gs
  induction gs using loopSegVals.induct sfreq min_dur with
  | case1 e1 e2 rest hshort ih =>
    intro s hs
    rw [loopSegVals, if_pos hshort] at hs
    rcases ih s hs with ⟨f1, hf1, f2, hf2, h⟩
    exact ⟨f1, List.mem_cons_of_mem _ hf1, f2, List.mem_cons_of_mem _ hf2, h⟩
  | case2 e1 e2 rest hshort ih =>
    intro s hs
    rw [loopSegVals, if_neg hshort] at hs
    rcases List.mem_cons.mp hs with rfl | hs
    · exact ⟨e1, List.mem_cons_self _ _, e2,
        List.mem_cons_of_mem _ (List.mem_cons_self _ _), rfl, rfl, rfl, rfl⟩
    · rcases ih s hs with ⟨f1, hf1, f2, hf2, h⟩
      exact ⟨f1, List.mem_cons_of_mem _ hf1, f2, List.mem_cons_of_mem _ hf2, h⟩
  | case3 t ht =>
    intro s hs
    cases t with
    | nil => simp [loopSegVals] at hs
    | cons a t2 =>
      cases t2 with
      | nil => simp [loopSegVals] at hs
      | cons b t3 => exact absurd rfl (ht a b t3)

/-- Like `loopSegVals_mem`, but on a sample-sorted event list the two
boundary events of every emitted segment are in strict sample order. -/
theorem loopSegVals_mem_pairs (sfreq min_dur : ℚ) :
    ∀ (gs : List Ev), gs.Pairwise (fun a b => a.sample < b.sample) →
      ∀ s ∈ loopSegVals sfreq min_dur gs,
        ∃ e1 ∈ gs, ∃ e2 ∈ gs, e1.sample < e2.sample ∧
          s.start_time = (e1.sample : ℚ) / sfreq ∧
          s.end_time = (e2.sample : ℚ) / sfreq := by
  intro gs
  induction gs using loopSegVals.induct sfreq min_dur with
  | case1 e1 e2 rest hshort ih =>
    intro hp s hs
    rw [loopSegVals, if_pos hshort] at hs
    rcases ih (List.Pairwise.tail hp) s hs with ⟨f1, hf1, f2, hf2, h⟩
    exact ⟨f1, List.mem_cons_of_mem _ hf1, f2, List.mem_cons_of_mem _ hf2, h⟩
  | case2 e1 e2 rest hshort ih =>
    intro hp s hs
    rw [loopSegVals, if_neg hshort] at hs
    rcases List.mem_cons.mp hs with rfl | hs
    · refine ⟨e1, List.mem_cons_self _ _, e2,
        List.mem_cons_of_mem _ (List.mem_cons_self _ _), ?_, rfl, rfl⟩
      exact (List.pairwise_cons.mp hp).1 e2
        (List.mem_cons_self _ _)
    · rcases ih (List.Pairwise.tail hp) s hs with ⟨f1, hf1, f2, hf2, h⟩
      exact ⟨f1, List.mem_cons_of_mem _ hf1, f2, List.mem_cons_of_mem _ hf2, h⟩
  | case3 t ht =>
    intro hp s hs
    cases t with
    | nil => simp [loopSegVals] at hs
    | cons a t2 =>
      cases t2 with
      | nil => simp [loopSegVals] at hs
      | cons b t3 => exact absurd rfl (ht a b t3)

theorem pairwise_sample_le_getLast :
    ∀ (l : List Ev), l.Pairwise (fun a b => a.sample < b.sample) →
      ∀ x ∈ l, ∀ e, l.getLast? = some e → x.sample ≤ e.sample := by
  intro l
  induction l with
  | nil => intro _ x hx; exact absurd hx (List.not_mem_nil x)
  | cons a t ih =>
    intro hp x hx e he
    cases t with
    | nil =>
      rcases List.mem_cons.mp hx with rfl | hx
      · have hae : x = e := by simpa using he
        rw [hae]
      · exact absurd hx (List.not_mem_nil x)
    | cons b t2 =>
      rw [List.getLast?_cons_cons] at he
      have hemem : e ∈ b :: t2 := List.mem_of_getLast?_eq_some he
      rcases List.mem_cons.mp hx with rfl | hx
      · exact le_of_lt ((List.pairwise_cons.mp hp).1 e hemem)
      · exact ih (List.Pairwise.tail hp) x hx e he

theorem groupEvents_sample_mem :
    ∀ (l : List Ev), ∀ y ∈ groupEvents l, ∃ x ∈ l, y.sample = x.sample := by
  intro l
  induction l using groupEvents.induct with
  | case1 => intro y hy; exact absurd hy (by simp [groupEvents])
  | case2 e =>
    intro y hy
    rw [groupEvents] at hy
    rcases List.mem_cons.mp hy with rfl | hy
    · exact ⟨y, List.mem_cons_self _ _, rfl⟩
    · exact absurd hy (List.not_mem_nil y)
  | case3 e1 e2 rest hc ih =>
    intro y hy
    rw [groupEvents, if_pos hc] at hy
    rcases List.mem_cons.mp hy with rfl | hy
    · exact ⟨e1, List.mem_cons_self _ _, rfl⟩
    · rcases ih y hy with ⟨x, hx, hxy⟩
      exact ⟨x, List.mem_cons_of_mem _ (List.mem_cons_of_mem _ hx), hxy⟩
  | case4 e1 e2 rest hc ih =>
    intro y hy
    rw [groupEvents, if_neg hc] at hy
    rcases List.mem_cons.mp hy with rfl | hy
    · exact ⟨y, List.mem_cons_self _ _, rfl⟩
    · rcases ih y hy with ⟨x, hx, hxy⟩
      exact ⟨x, List.mem_cons_of_mem _ hx, hxy⟩

theorem groupEvents_name_mem :
    ∀ (l : List Ev), ∀ y ∈ groupEvents l, ∃ x ∈ l, y.name = x.name := by
  intro l
  induction l using groupEvents.induct with
  | case1 => intro y hy; exact absurd hy (by simp [groupEvents])
  | case2 e =>
    intro y hy
    rw [groupEvents] at hy
    rcases List.mem_cons.mp hy with rfl | hy
    · exact ⟨y, List.mem_cons_self _ _, rfl⟩
    · exact absurd hy (List.not_mem_nil y)
  | case3 e1 e2 rest hc ih =>
    intro y hy
    rw [groupEvents, if_pos hc] at hy
    rcases List.mem_cons.mp hy with rfl | hy
    · exact ⟨e2, List.mem_cons_of_mem _ (List.mem_cons_self _ _), rfl⟩
    · rcases ih y hy with ⟨x, hx, hxy⟩
      exact ⟨x, List.mem_cons_of_mem _ (List.mem_cons_of_mem _ hx), hxy⟩
  | case4 e1 e2 rest hc ih =>
    intro y hy
    rw [groupEvents, if_neg hc] at hy
    rcases List.mem_cons.mp hy with rfl | hy
    · exact ⟨y, List.mem_cons_self _ _, rfl⟩
    · rcases ih y hy with ⟨x, hx, hxy⟩
      exact ⟨x, List.mem_cons_of_mem _ hx, hxy⟩

theorem groupEvents_pairwise :
    ∀ (l : List Ev), l.Pairwise (fun a b => a.sample < b.sample) →
      (groupEvents l).Pairwise (fun a b => a.sample < b.sample) := by
  intro l
  induction l using groupEvents.induct with
  | case1 => intro _; simp [groupEvents]
  | case2 e => intro _; rw [groupEvents]; simp
  | case3 e1 e2 rest hc ih =>
    intro hp
    rw [groupEvents, if_pos hc]
    refine List.pairwise_cons.mpr ⟨?_, ?_⟩
    · intro y hy
      rcases groupEvents_sample_mem rest y hy with ⟨x, hx, hxy⟩
      show e1.sample < y.sample
      rw [hxy]
      exact (List.pairwise_cons.mp hp).1 x
        (List.mem_cons_of_mem _ hx)
    · exact ih (List.Pairwise.tail (List.Pairwise.tail hp))
  | case4 e1 e2 rest hc ih =>
    intro hp
    rw [groupEvents, if_neg hc]
    refine List.pairwise_cons.mpr ⟨?_, ?_⟩
    · intro y hy
      rcases groupEvents_sample_mem (e2 :: rest) y hy with ⟨x, hx, hxy⟩
      show e1.sample < y.sample
      rw [hxy]
      exact (List.pairwise_cons.mp hp).1 x hx
    · exact ih (List.Pairwise.tail hp)

theorem filtered_events_pairwise (events : List MNEEvent)
    (ev_id : List (String × ℕ))
    (hp : events.Pairwise (fun a b => a.sample < b.sample)) :
    (filtered_events events ev_id).Pairwise (fun a b => a.sample < b.sample) := by
  unfold filtered_events
  rw [List.pairwise_map]
  exact List.Pairwise.filter _ hp

theorem loopSegVals_chain (sfreq min_dur : ℚ) (hsf : 0 < sfreq) :
    ∀ gs : List Ev, gs.Pairwise (fun a b => a.sample < b.sample) →
      (loopSegVals sfreq min_dur gs).Chain'
        (fun a b => a.end_time ≤ b.start_time ∧ a.start_time < b.start_time) := by
  intro gs
  induction gs using loopSegVals.induct sfreq min_dur with
  | case1 e1 e2 rest hshort ih =>
    intro hp
    rw [loopSegVals, if_pos hshort]
    exact ih (List.Pairwise.tail hp)
  | case2 e1 e2 rest hshort ih =>
    intro hp
    rw [loopSegVals, if_neg hshort]
    rw [List.chain'_cons']
    refine ⟨?_, ih (List.Pairwise.tail hp)⟩
    intro b hb
    have hbmem : b ∈ loopSegVals sfreq min_dur (e2 :: rest) :=
      List.mem_of_mem_head? hb
    rcases loopSegVals_mem_pairs sfreq min_dur (e2 :: rest)
      (List.Pairwise.tail hp) b hbmem with ⟨f1, hf1, f2, _, hf12, hbs, _⟩
    have he2f1 : e2.sample ≤ f1.sample := by
      rcases List.mem_cons.mp hf1 with rfl | hf1
      · exact le_refl _
      · exact le_of_lt ((List.pairwise_cons.mp (List.Pairwise.tail hp)).1 f1 hf1)
    have he1e2 : e1.sample < e2.sample :=
      (List.pairwise_cons.mp hp).1 e2 (List.mem_cons_self _ _)
    constructor
    · show (e2.sample : ℚ) / sfreq ≤ b.start_time
      rw [hbs]
      exact (div_le_div_iff_of_pos_right hsf).mpr (Nat.cast_le.mpr he2f1)
    · show (e1.sample : ℚ) / sfreq < b.start_time
      rw [hbs]
      exact (div_lt_div_iff_of_pos_right hsf).mpr (Nat.cast_lt.mpr (by omega))
  | case3 t ht =>
    intro hp
    cases t with
    | nil => simp [loopSegVals]
    | cons a t2 =>
      cases t2 with
      | nil => simp [loopSegVals]
      | cons b t3 => exact absurd rfl (ht a b t3)

theorem loopSegVals_bounds (sfreq min_dur : ℚ) (hsf : 0 < sfreq)
    (gs : List Ev) (hp : gs.Pairwise (fun a b => a.sample < b.sample))
    (e : Ev) (he : gs.getLast? = some e) :
    ∀ s ∈ loopSegVals sfreq min_dur gs,
      s.end_time ≤ (e.sample : ℚ) / sfreq ∧
      s.start_time < (e.sample : ℚ) / sfreq := by
  intro s hs
  rcases loopSegVals_mem_pairs sfreq min_dur gs hp s hs with
    ⟨f1, hf1, f2, hf2, hf12, hss, hse⟩
  have h2e : f2.sample ≤ e.sample := pairwise_sample_le_getLast gs hp f2 hf2 e he
  constructor
  · rw [hse]
    exact (div_le_div_iff_of_pos_right hsf).mpr (Nat.cast_le.mpr h2e)
  · rw [hss]
    exact (div_lt_div_iff_of_pos_right hsf).mpr (Nat.cast_lt.mpr (by omega))

/-- The whole produced segment-value list (pair loop then trailing block)
is chained: each segment ends no later than the next begins, and starts
strictly before it. -/
theorem segVals_chain (sfreq min_dur times_last : ℚ) (hsf : 0 < sfreq)
    (gs : List Ev) (hp : gs.Pairwise (fun a b => a.sample < b.sample)) :
    (loopSegVals sfreq min_dur gs ++ trailVals sfreq times_last gs).Chain'
      (fun a b => a.end_time ≤ b.start_time ∧ a.start_time < b.start_time) := by
  rw [List.chain'_append]
  refine ⟨loopSegVals_chain sfreq min_dur hsf gs hp, ?_, ?_⟩
  · unfold trailVals
    cases gs.getLast? <;> simp
  · intro x hx y hy
    unfold trailVals at hy
    cases he : gs.getLast? with
    | none => rw [he] at hy; simp at hy
    | some e =>
      rw [he] at hy
      simp only [List.head?_cons, Option.mem_def, Option.some.injEq] at hy
      have hxmem : x ∈ loopSegVals sfreq min_dur gs :=
        List.mem_of_mem_getLast? hx
      have hb := loopSegVals_bounds sfreq min_dur hsf gs hp e he x hxmem
      rw [← hy]
      exact ⟨hb.1, hb.2⟩

/-- Decomposition of a successful `processWith` call: the result extends
the incoming `seg_dict`; on the main path the appended values are exactly
the pair-loop values followed by the trailing value; key-uniqueness is
preserved. -/
theorem processWith_ok_shape (min_dur : ℚ) (st : SegState)
    (d : List (String × Segment)) (log : List String)
    (h : processWith min_dur st = .ok (d, log)) :
    ∃ t, d = st.seg_dict ++ t ∧
      ((st.seg_dict.map Prod.fst).Nodup → (d.map Prod.fst).Nodup) ∧
      (t = [] ∨ ∃ raw, st.raw = some raw ∧
        t.map Prod.snd =
          loopSegVals raw.sfreq min_dur
            (groupEvents (filtered_events raw.events raw.event_id)) ++
          trailVals raw.sfreq raw.times_last
            (groupEvents (filtered_events raw.events raw.event_id))) := by
  unfold processWith at h
  cases hr : st.raw with
  | none => rw [hr] at h; exact absurd h (by simp)
  | some raw =>
    rw [hr] at h
    simp only [] at h
    by_cases h2 : raw.events.length < 2
    · rw [if_pos h2] at h
      have hd : st.seg_dict = d := by
        simpa using congrArg (fun r => (r.toOption.map Prod.fst).getD d) h
      exact ⟨[], by simp [hd], fun hn => by simpa [← hd], Or.inl rfl⟩
    · rw [if_neg h2] at h
      by_cases h3 : (filtered_events raw.events raw.event_id).length < 2
      · rw [if_pos h3] at h
        have hd : st.seg_dict = d := by
          simpa using congrArg (fun r => (r.toOption.map Prod.fst).getD d) h
        exact ⟨[], by simp [hd], fun hn => by simpa [← hd], Or.inl rfl⟩
      · rw [if_neg h3] at h
        have hd : addTrailing raw.sfreq raw.times_last
            (groupEvents (filtered_events raw.events raw.event_id))
            (segLoop raw.sfreq min_dur st.seg_dict
              (groupEvents (filtered_events raw.events raw.event_id))) = d := by
          simpa using congrArg (fun r => (r.toOption.map Prod.fst).getD d) h
        rcases segLoop_append raw.sfreq min_dur
          (groupEvents (filtered_events raw.events raw.event_id)) st.seg_dict with
          ⟨t1, he1, hv1, hn1⟩
        rcases addTrailing_append raw.sfreq raw.times_last
          (groupEvents (filtered_events raw.events raw.event_id))
          (st.seg_dict ++ t1) with ⟨t2, he2, hv2, hn2⟩
        rw [he1] at hd
        rw [he2, List.append_assoc] at hd
        refine ⟨t1 ++ t2, hd.symm, ?_, Or.inr ⟨raw, rfl, ?_⟩⟩
        · intro hn
          rw [← hd, ← List.append_assoc]
          exact hn2 (hn1 hn)
        · rw [List.map_append, hv1, hv2]

end EdfSegmentor

/-! ## Claims about core/edf_segmentor.py -/

namespace EdfSegmentor

/-- Unfolding equation for `processWith` on a loaded state. -/
theorem processWith_some_eq (min_dur : ℚ) (sd : List (String × Segment))
    (raw : Raw) :
    processWith min_dur ⟨sd, some raw⟩ =
      if raw.events.length < 2 then
        .ok (sd,
          ["Starting processing...", "Insufficient events to extract segments."])
      else if (filtered_events raw.events raw.event_id).length < 2 then
        .ok (sd, ["Starting processing...", "No valid events after filtering."])
      else
        .ok (addTrailing raw.sfreq raw.times_last
              (groupEvents (filtered_events raw.events raw.event_id))
              (segLoop raw.sfreq min_dur sd
                (groupEvents (filtered_events raw.events raw.event_id))),
          ["Starting processing..."]) := rfl

theorem processWith_settings (st : SegState) :
    processWith settings.MIN_SEGMENT_DURATION st = process st := rfl

theorem state_eta (st : SegState) (raw : Raw) (hr : st.raw = some raw) :
    st = ⟨st.seg_dict, some raw⟩ := by
  cases st with
  | mk sd r => subst hr; rfl

theorem process_loaded_ok (min_dur : ℚ) (st : SegState) (raw : Raw)
    (hr : st.raw = some raw) : ∃ p, processWith min_dur st = .ok p := by
  rw [state_eta st raw hr, processWith_some_eq]
  by_cases h2 : raw.events.length < 2
  · rw [if_pos h2]; exact ⟨_, rfl⟩
  · rw [if_neg h2]
    by_cases h3 : (filtered_events raw.events raw.event_id).length < 2
    · rw [if_pos h3]; exact ⟨_, rfl⟩
    · rw [if_neg h3]; exact ⟨_, rfl⟩

/-- Recording with events at samples 0 and 1000, 100 Hz, 12 s long: the
pair segment [0,10] passes the 5 s floor, the trailing segment [10,12]
is 2 s long. -/
def rawTwoEvents : Raw := ⟨100, 12, [⟨0, 2⟩, ⟨1000, 3⟩], [("A", 2), ("B", 3)]⟩

def twoEventsOut : List (String × Segment) :=
  [("A", ⟨0, 10, "A", "B", (0, some 10)⟩),
   ("B", ⟨10, 12, "B", "End", (10, none)⟩)]

/-- Scenario B of the spec: a single event at t = 10 s in a 12 s
recording. -/
def rawSingleEvent : Raw := ⟨100, 12, [⟨1000, 2⟩], [("Фоновая запись", 2)]⟩

/-- A recording whose first event label "Артефакт" is in the exclusion
set of core/event_processor.py (and has id ≠ 1). -/
def rawArtefact : Raw :=
  ⟨100, 25, [⟨0, 5⟩, ⟨2000, 6⟩], [("Артефакт", 5), ("Фоновая запись", 6)]⟩

def artefactOut : List (String × Segment) :=
  [("Артефакт", ⟨0, 20, "Артефакт", "Background", (0, some 20)⟩),
   ("Background", ⟨20, 25, "Background", "End", (20, none)⟩)]

/-- An event list that is not sorted by sample index
(0, 10000, 5000, 15000). -/
def rawUnsorted : Raw :=
  ⟨100, 200, [⟨0, 2⟩, ⟨10000, 3⟩, ⟨5000, 4⟩, ⟨15000, 5⟩],
   [("A", 2), ("B", 3), ("C", 4), ("D", 5)]⟩

def unsortedOut : List (String × Segment) :=
  [("A", ⟨0, 100, "A", "B", (0, some 100)⟩),
   ("C", ⟨50, 150, "C", "D", (50, some 150)⟩),
   ("D", ⟨150, 200, "D", "End", (150, none)⟩)]

/-- An engine state as after a first processed recording (seg_dict holds
`twoEventsOut`) with a second recording loaded in its place. -/
def rawSecondRun : Raw := ⟨100, 30, [⟨0, 4⟩, ⟨2000, 5⟩], [("C", 4), ("D", 5)]⟩

def staleState : SegState := ⟨twoEventsOut, some rawSecondRun⟩

/-- Concrete evaluation of `process` on `rawTwoEvents` (the rational
arithmetic is not kernel-reducible, so duration guards are discharged by
`norm_num` and the result is then normalized). -/
theorem twoEvents_eval : process ⟨[], some rawTwoEvents⟩ =
    .ok (twoEventsOut, ["Starting processing..."]) := by
  show processWith settings.MIN_SEGMENT_DURATION ⟨[], some rawTwoEvents⟩ = _
  have hc : ¬(((1000 : ℕ) : ℚ) / 100 - ((0 : ℕ) : ℚ) / 100 <
      settings.MIN_SEGMENT_DURATION) := by
    norm_num [settings.MIN_SEGMENT_DURATION]
  have h1 : processWith settings.MIN_SEGMENT_DURATION ⟨[], some rawTwoEvents⟩ =
      .ok ([("A", ⟨((0 : ℕ) : ℚ) / 100, ((1000 : ℕ) : ℚ) / 100, "A", "B",
              (((0 : ℕ) : ℚ) / 100, some (((1000 : ℕ) : ℚ) / 100))⟩),
            ("B", ⟨((1000 : ℕ) : ℚ) / 100, 12, "B", "End",
              (((1000 : ℕ) : ℚ) / 100, none)⟩)],
        ["Starting processing..."]) := by
    rw [show (⟨[], some rawTwoEvents⟩ : SegState) =
      (⟨[], some ⟨100, 12, [⟨0, 2⟩, ⟨1000, 3⟩], [("A", 2), ("B", 3)]⟩⟩ : SegState)
      from rfl, processWith_some_eq]
    rw [if_neg (by decide), if_neg (by decide)]
    rw [show groupEvents (filtered_events
        (⟨100, 12, [⟨0, 2⟩, ⟨1000, 3⟩], [("A", 2), ("B", 3)]⟩ : Raw).events
        (⟨100, 12, [⟨0, 2⟩, ⟨1000, 3⟩], [("A", 2), ("B", 3)]⟩ : Raw).event_id) =
      [⟨0, 2, "A"⟩, ⟨1000, 3, "B"⟩] from rfl]
    rw [segLoop]
    dsimp only
    rw [if_neg hc]
    rfl
  rw [h1, twoEventsOut]
  norm_num

/-- Concrete evaluation of `process` on `rawArtefact`. -/
theorem artefact_eval : process ⟨[], some rawArtefact⟩ =
    .ok (artefactOut, ["Starting processing..."]) := by
  show processWith settings.MIN_SEGMENT_DURATION ⟨[], some rawArtefact⟩ = _
  have hc : ¬(((2000 : ℕ) : ℚ) / 100 - ((0 : ℕ) : ℚ) / 100 <
      settings.MIN_SEGMENT_DURATION) := by
    norm_num [settings.MIN_SEGMENT_DURATION]
  have h1 : processWith settings.MIN_SEGMENT_DURATION ⟨[], some rawArtefact⟩ =
      .ok ([("Артефакт", ⟨((0 : ℕ) : ℚ) / 100, ((2000 : ℕ) : ℚ) / 100,
              "Артефакт", "Background",
              (((0 : ℕ) : ℚ) / 100, some (((2000 : ℕ) : ℚ) / 100))⟩),
            ("Background", ⟨((2000 : ℕ) : ℚ) / 100, 25, "Background", "End",
              (((2000 : ℕ) : ℚ) / 100, none)⟩)],
        ["Starting processing..."]) := by
    rw [show (⟨[], some rawArtefact⟩ : SegState) =
      (⟨[], some ⟨100, 25, [⟨0, 5⟩, ⟨2000, 6⟩],
        [("Артефакт", 5), ("Фоновая запись", 6)]⟩⟩ : SegState)
      from rfl, processWith_some_eq]
    rw [if_neg (by decide), if_neg (by decide)]
    rw [show groupEvents (filtered_events
        (⟨100, 25, [⟨0, 5⟩, ⟨2000, 6⟩],
          [("Артефакт", 5), ("Фоновая запись", 6)]⟩ : Raw).events
        (⟨100, 25, [⟨0, 5⟩, ⟨2000, 6⟩],
          [("Артефакт", 5), ("Фоновая запись", 6)]⟩ : Raw).event_id) =
      [⟨0, 5, "Артефакт"⟩, ⟨2000, 6, "Фоновая запись"⟩] from rfl]
    rw [segLoop]
    dsimp only
    rw [if_neg hc]
    rfl
  rw [h1, artefactOut]
  norm_num

/-- Concrete evaluation of `process` on the unsorted event list: the
middle pair has negative duration and is skipped, the surrounding two
pairs and the trailing segment are stored and overlap. -/
theorem unsorted_eval : process ⟨[], some rawUnsorted⟩ =
    .ok (unsortedOut, ["Starting processing..."]) := by
  show processWith settings.MIN_SEGMENT_DURATION ⟨[], some rawUnsorted⟩ = _
  have hc1 : ¬(((10000 : ℕ) : ℚ) / 100 - ((0 : ℕ) : ℚ) / 100 <
      settings.MIN_SEGMENT_DURATION) := by
    norm_num [settings.MIN_SEGMENT_DURATION]
  have hc2 : ((5000 : ℕ) : ℚ) / 100 - ((10000 : ℕ) : ℚ) / 100 <
      settings.MIN_SEGMENT_DURATION := by
    norm_num [settings.MIN_SEGMENT_DURATION]
  have hc3 : ¬(((15000 : ℕ) : ℚ) / 100 - ((5000 : ℕ) : ℚ) / 100 <
      settings.MIN_SEGMENT_DURATION) := by
    norm_num [settings.MIN_SEGMENT_DURATION]
  have h1 : processWith settings.MIN_SEGMENT_DURATION ⟨[], some rawUnsorted⟩ =
      .ok ([("A", ⟨((0 : ℕ) : ℚ) / 100, ((10000 : ℕ) : ℚ) / 100, "A", "B",
              (((0 : ℕ) : ℚ) / 100, some (((10000 : ℕ) : ℚ) / 100))⟩),
            ("C", ⟨((5000 : ℕ) : ℚ) / 100, ((15000 : ℕ) : ℚ) / 100, "C", "D",
              (((5000 : ℕ) : ℚ) / 100, some (((15000 : ℕ) : ℚ) / 100))⟩),
            ("D", ⟨((15000 : ℕ) : ℚ) / 100, 200, "D", "End",
              (((15000 : ℕ) : ℚ) / 100, none)⟩)],
        ["Starting processing..."]) := by
    rw [show (⟨[], some rawUnsorted⟩ : SegState) =
      (⟨[], some ⟨100, 200, [⟨0, 2⟩, ⟨10000, 3⟩, ⟨5000, 4⟩, ⟨15000, 5⟩],
        [("A", 2), ("B", 3), ("C", 4), ("D", 5)]⟩⟩ : SegState)
      from rfl, processWith_some_eq]
    rw [if_neg (by decide), if_neg (by decide)]
    rw [show groupEvents (filtered_events
        (⟨100, 200, [⟨0, 2⟩, ⟨10000, 3⟩, ⟨5000, 4⟩, ⟨15000, 5⟩],
          [("A", 2), ("B", 3), ("C", 4), ("D", 5)]⟩ : Raw).events
        (⟨100, 200, [⟨0, 2⟩, ⟨10000, 3⟩, ⟨5000, 4⟩, ⟨15000, 5⟩],
          [("A", 2), ("B", 3), ("C", 4), ("D", 5)]⟩ : Raw).event_id) =
      [⟨0, 2, "A"⟩, ⟨10000, 3, "B"⟩, ⟨5000, 4, "C"⟩, ⟨15000, 5, "D"⟩] from rfl]
    rw [segLoop]
    dsimp only
    rw [if_neg hc1]
    try dsimp only
    rw [segLoop]
    try dsimp only
    rw [if_pos hc2]
    try dsimp only
    rw [segLoop]
    try dsimp only
    rw [if_neg hc3]
    rfl
  rw [h1, unsortedOut]
  norm_num

/-- Concrete evaluation of `process` on the stale state: the old entries
stay in the map and the new recording's segments are appended. -/
theorem stale_eval : process staleState =
    .ok (twoEventsOut ++
      [("C", ⟨0, 20, "C", "D", (0, some 20)⟩),
       ("D", ⟨20, 30, "D", "End", (20, none)⟩)], ["Starting processing..."]) := by
  show processWith settings.MIN_SEGMENT_DURATION staleState = _
  have hc : ¬(((2000 : ℕ) : ℚ) / 100 - ((0 : ℕ) : ℚ) / 100 <
      settings.MIN_SEGMENT_DURATION) := by
    norm_num [settings.MIN_SEGMENT_DURATION]
  have h1 : processWith settings.MIN_SEGMENT_DURATION staleState =
      .ok ([("A", ⟨0, 10, "A", "B", (0, some 10)⟩),
            ("B", ⟨10, 12, "B", "End", (10, none)⟩),
            ("C", ⟨((0 : ℕ) : ℚ) / 100, ((2000 : ℕ) : ℚ) / 100, "C", "D",
              (((0 : ℕ) : ℚ) / 100, some (((2000 : ℕ) : ℚ) / 100))⟩),
            ("D", ⟨((2000 : ℕ) : ℚ) / 100, 30, "D", "End",
              (((2000 : ℕ) : ℚ) / 100, none)⟩)],
        ["Starting processing..."]) := by
    rw [show staleState =
      (⟨[("A", ⟨0, 10, "A", "B", (0, some 10)⟩),
         ("B", ⟨10, 12, "B", "End", (10, none)⟩)],
        some ⟨100, 30, [⟨0, 4⟩, ⟨2000, 5⟩], [("C", 4), ("D", 5)]⟩⟩ : SegState)
      from rfl, processWith_some_eq]
    rw [if_neg (by decide), if_neg (by decide)]
    rw [show groupEvents (filtered_events
        (⟨100, 30, [⟨0, 4⟩, ⟨2000, 5⟩], [("C", 4), ("D", 5)]⟩ : Raw).events
        (⟨100, 30, [⟨0, 4⟩, ⟨2000, 5⟩], [("C", 4), ("D", 5)]⟩ : Raw).event_id) =
      [⟨0, 4, "C"⟩, ⟨2000, 5, "D"⟩] from rfl]
    rw [segLoop]
    dsimp only
    rw [if_neg hc]
    rfl
  rw [h1, twoEventsOut]
  norm_num

/-- C5: `process()` raises exactly when no recording is loaded; a loaded
recording with fewer than 2 events, or fewer than 2 after filtering,
yields a normal return with an unchanged (empty, on a fresh engine)
segment map and a diagnostic message. -/
theorem claim_C5_error_policy (st : SegState) :
    (isError (process st) = true ↔ st.raw = none) ∧
    (∀ raw, st.raw = some raw → st.seg_dict = [] →
      (raw.events.length < 2 ∨
        (filtered_events raw.events raw.event_id).length < 2) →
      ∃ msg, process st = .ok ([], ["Starting processing...", msg]) ∧
        (msg = "Insufficient events to extract segments." ∨
         msg = "No valid events after filtering.")) := by
  constructor
  · constructor
    · intro h
      cases hr : st.raw with
      | none => rfl
      | some raw =>
        rcases process_loaded_ok settings.MIN_SEGMENT_DURATION st raw hr with ⟨p, hp⟩
        rw [process, hp] at h
        simp [isError] at h
    · intro h
      show isError (processWith settings.MIN_SEGMENT_DURATION st) = true
      unfold processWith
      rw [h]
      rfl
  · intro raw hr hsd hlen
    have hst : st = ⟨[], some raw⟩ := by
      cases st with
      | mk sd r =>
        simp only [] at hsd hr
        subst hsd
        subst hr
        rfl
    rw [hst]
    rw [show process (⟨[], some raw⟩ : SegState) =
      processWith settings.MIN_SEGMENT_DURATION ⟨[], some raw⟩ from rfl]
    rw [processWith_some_eq]
    by_cases h2 : raw.events.length < 2
    · rw [if_pos h2]
      exact ⟨_, rfl, Or.inl rfl⟩
    · rw [if_neg h2]
      have h3 : (filtered_events raw.events raw.event_id).length < 2 :=
        hlen.resolve_left h2
      rw [if_pos h3]
      exact ⟨_, rfl, Or.inr rfl⟩

/-- Witness for C5: an unloaded engine raises; a loaded single-event
recording returns an empty map with a diagnostic. -/
theorem claim_C5_error_policy_witness :
    isError (process ⟨[], none⟩) = true ∧
    ∃ msg, process ⟨[], some rawSingleEvent⟩ =
      .ok ([], ["Starting processing...", msg]) ∧
      (msg = "Insufficient events to extract segments." ∨
       msg = "No valid events after filtering.") :=
  ⟨(claim_C5_error_policy ⟨[], none⟩).1.mpr rfl,
   (claim_C5_error_policy ⟨[], some rawSingleEvent⟩).2 rawSingleEvent rfl rfl
     (Or.inl (by decide))⟩

/-- C4 counterexample: invoking `process()` with a non-empty `seg_dict`
left from an earlier run keeps the old segments in the map: the claim
that the later call's map contains only segments of the currently loaded
recording is false. -/
theorem claim_C4_counterexample :
    process staleState = .ok (twoEventsOut ++
      [("C", ⟨0, 20, "C", "D", (0, some 20)⟩),
       ("D", ⟨20, 30, "D", "End", (20, none)⟩)], ["Starting processing..."]) ∧
    staleState.seg_dict = twoEventsOut ∧ twoEventsOut.length = 2 :=
  ⟨stale_eval, rfl, rfl⟩

/-- C4 amended: `process()` never clears `seg_dict`; every successful
call returns the incoming dictionary extended by the newly created
segments. -/
theorem claim_C4_map_accumulates (min_dur : ℚ) (st : SegState)
    (d : List (String × Segment)) (log : List String)
    (h : processWith min_dur st = .ok (d, log)) :
    ∃ t, d = st.seg_dict ++ t :=
  (processWith_ok_shape min_dur st d log h).imp (fun _ ht => ht.1)

/-- Witness for C4: the stale-state run extends the old dictionary. -/
theorem claim_C4_map_accumulates_witness :
    ∃ t, (twoEventsOut ++
      [("C", ⟨0, 20, "C", "D", (0, some 20)⟩),
       ("D", ⟨20, 30, "D", "End", (20, none)⟩)]) = staleState.seg_dict ++ t :=
  claim_C4_map_accumulates settings.MIN_SEGMENT_DURATION staleState
    (twoEventsOut ++
      [("C", ⟨0, 20, "C", "D", (0, some 20)⟩),
       ("D", ⟨20, 30, "D", "End", (20, none)⟩)]) ["Starting processing..."]
    ((processWith_settings staleState).trans stale_eval)

/-- C7: with distinct keys on entry (in particular on a fresh engine),
the keys of the map after `process()` are pairwise distinct; freshness
comes from the allocator being called against the current key set. -/
theorem claim_C7_name_uniqueness (min_dur : ℚ) (st : SegState)
    (d : List (String × Segment)) (log : List String)
    (hnd : (st.seg_dict.map Prod.fst).Nodup)
    (h : processWith min_dur st = .ok (d, log)) :
    (d.map Prod.fst).Nodup := by
  rcases processWith_ok_shape min_dur st d log h with ⟨t, _, hn, _⟩
  exact hn hnd

/-- Witness for C7 at the two-event recording. -/
theorem claim_C7_name_uniqueness_witness :
    (twoEventsOut.map Prod.fst).Nodup :=
  claim_C7_name_uniqueness settings.MIN_SEGMENT_DURATION ⟨[], some rawTwoEvents⟩
    twoEventsOut ["Starting processing..."] (by simp)
    ((processWith_settings _).trans twoEvents_eval)

/-- C1 counterexample: the trailing segment is stored with no duration
check; with events at 0 s and 10 s in a 12 s recording the stored map
contains a 2 s segment although MIN_SEGMENT_DURATION = 5. -/
theorem claim_C1_counterexample :
    process ⟨[], some rawTwoEvents⟩ =
      .ok (twoEventsOut, ["Starting processing..."]) ∧
    (twoEventsOut.any (fun p =>
      p.2.end_time - p.2.start_time < settings.MIN_SEGMENT_DURATION)) = true :=
  ⟨twoEvents_eval,
   by norm_num [twoEventsOut, settings.MIN_SEGMENT_DURATION, List.any_cons]⟩

/-- C1 amended: the duration floor holds for every stored segment except
the final trailing one (the last entry of the map), which is stored
unconditionally. -/
theorem claim_C1_duration_floor (min_dur : ℚ) (st : SegState)
    (d : List (String × Segment)) (log : List String)
    (hsd : st.seg_dict = []) (h : processWith min_dur st = .ok (d, log)) :
    ∀ p ∈ d.dropLast, min_dur ≤ p.2.end_time - p.2.start_time := by
  rcases processWith_ok_shape min_dur st d log h with ⟨t, het, _, hv⟩
  rw [hsd] at het
  simp only [List.nil_append] at het
  subst het
  rcases hv with rfl | ⟨raw, hr, hvals⟩
  · intro p hp
    exact absurd hp (by simp)
  · intro p hp
    have hp2 : p.2 ∈ (d.map Prod.snd).dropLast := by
      rw [← List.map_dropLast]
      exact List.mem_map_of_mem Prod.snd hp
    rw [hvals] at hp2
    have hploop : p.2 ∈ loopSegVals raw.sfreq min_dur
        (groupEvents (filtered_events raw.events raw.event_id)) := by
      rcases hgl : (groupEvents
          (filtered_events raw.events raw.event_id)).getLast? with _ | e
      · simp only [trailVals, hgl, List.append_nil] at hp2
        exact (List.dropLast_sublist _).subset hp2
      · simp only [trailVals, hgl, List.dropLast_concat] at hp2
        exact hp2
    exact loopSegVals_floor raw.sfreq min_dur _ p.2 hploop

/-- Witness for C1: the non-trailing segment of the two-event run meets
the floor. -/
theorem claim_C1_duration_floor_witness :
    settings.MIN_SEGMENT_DURATION ≤
      (⟨0, 10, "A", "B", (0, some 10)⟩ : Segment).end_time -
      (⟨0, 10, "A", "B", (0, some 10)⟩ : Segment).start_time :=
  claim_C1_duration_floor settings.MIN_SEGMENT_DURATION ⟨[], some rawTwoEvents⟩
    twoEventsOut ["Starting processing..."] rfl
    ((processWith_settings _).trans twoEvents_eval)
    ("A", ⟨0, 10, "A", "B", (0, some 10)⟩) (by decide)

/-- C2 counterexample: scenario B (single event at t = 10 s, 12 s
recording) produces an empty map — no leading segment is emitted, not
the claimed single segment [0 s, 10 s). -/
theorem claim_C2_counterexample :
    process ⟨[], some rawSingleEvent⟩ =
      .ok ([], ["Starting processing...",
        "Insufficient events to extract segments."]) ∧
    ([] : List (String × Segment)).length = 0 :=
  ⟨rfl, rfl⟩

/-- C2 amended: `process()` has no leading-segment step: every stored
segment starts at the time of one of the grouped events, never at the
recording start unless an event is there. -/
theorem claim_C2_no_leading_segment (min_dur : ℚ) (st : SegState)
    (d : List (String × Segment)) (log : List String)
    (hsd : st.seg_dict = []) (h : processWith min_dur st = .ok (d, log)) :
    ∀ p ∈ d, ∃ raw, st.raw = some raw ∧
      ∃ e ∈ groupEvents (filtered_events raw.events raw.event_id),
        p.2.start_time = (e.sample : ℚ) / raw.sfreq := by
  rcases processWith_ok_shape min_dur st d log h with ⟨t, het, _, hv⟩
  rw [hsd] at het
  simp only [List.nil_append] at het
  subst het
  rcases hv with rfl | ⟨raw, hr, hvals⟩
  · intro p hp
    exact absurd hp (by simp)
  · intro p hp
    have hp2 : p.2 ∈ d.map Prod.snd := List.mem_map_of_mem Prod.snd hp
    rw [hvals] at hp2
    rcases List.mem_append.mp hp2 with hp2 | hp2
    · rcases loopSegVals_mem raw.sfreq min_dur _ p.2 hp2 with
        ⟨e1, he1, _, _, hs, _⟩
      exact ⟨raw, hr, e1, he1, hs⟩
    · rcases hgl : (groupEvents
          (filtered_events raw.events raw.event_id)).getLast? with _ | e
      · rw [trailVals, hgl] at hp2
        exact absurd hp2 (by simp)
      · rw [trailVals, hgl] at hp2
        have hpe : p.2 = ⟨(e.sample : ℚ) / raw.sfreq, raw.times_last,
            _simplify_segment_name e.name, "End",
            ((e.sample : ℚ) / raw.sfreq, none)⟩ := by simpa using hp2
        exact ⟨raw, hr, e, List.mem_of_getLast?_eq_some hgl, by rw [hpe]⟩

/-- Witness for C2: the first stored segment of the two-event run starts
at a grouped event's time. -/
theorem claim_C2_no_leading_segment_witness :
    ∃ raw, (⟨[], some rawTwoEvents⟩ : SegState).raw = some raw ∧
      ∃ e ∈ groupEvents (filtered_events raw.events raw.event_id),
        (⟨0, 10, "A", "B", (0, some 10)⟩ : Segment).start_time =
          (e.sample : ℚ) / raw.sfreq :=
  claim_C2_no_leading_segment settings.MIN_SEGMENT_DURATION
    ⟨[], some rawTwoEvents⟩ twoEventsOut ["Starting processing..."] rfl
    ((processWith_settings _).trans twoEvents_eval)
    ("A", ⟨0, 10, "A", "B", (0, some 10)⟩) (by decide)

/-- C3 counterexample: the segmentor's own `EventProcessor` filters only
id-1 (stimFlash) events; an event labelled "Артефакт" — a member of the
exclusion set of core/event_processor.py — becomes a segment boundary and
predecessor label. -/
theorem claim_C3_counterexample :
    process ⟨[], some rawArtefact⟩ =
      .ok (artefactOut, ["Starting processing..."]) ∧
    "Артефакт" ∈ EDF.EventProcessor.EXCLUDED_NAMES ∧
    (artefactOut.any (fun p => p.2.current_event = "Артефакт")) = true :=
  ⟨artefact_eval, by decide, by decide⟩

/-- C3 amended: the only event filtering in `process()` is by id 1; every
stored segment's predecessor label is the simplified name of some
retained (id ≠ 1) event, with no exclusion-set check. -/
theorem claim_C3_no_exclusion_filter (min_dur : ℚ) (st : SegState)
    (d : List (String × Segment)) (log : List String)
    (hsd : st.seg_dict = []) (h : processWith min_dur st = .ok (d, log)) :
    ∀ p ∈ d, ∃ raw, st.raw = some raw ∧
      ∃ e ∈ filtered_events raw.events raw.event_id,
        p.2.current_event = _simplify_segment_name e.name := by
  rcases processWith_ok_shape min_dur st d log h with ⟨t, het, _, hv⟩
  rw [hsd] at het
  simp only [List.nil_append] at het
  subst het
  rcases hv with rfl | ⟨raw, hr, hvals⟩
  · intro p hp
    exact absurd hp (by simp)
  · intro p hp
    have hp2 : p.2 ∈ d.map Prod.snd := List.mem_map_of_mem Prod.snd hp
    rw [hvals] at hp2
    rcases List.mem_append.mp hp2 with hp2 | hp2
    · rcases loopSegVals_mem raw.sfreq min_dur _ p.2 hp2 with
        ⟨e1, he1, _, _, _, _, hc, _⟩
      rcases groupEvents_name_mem _ e1 he1 with ⟨x, hx, hxn⟩
      exact ⟨raw, hr, x, hx, by rw [hc, hxn]⟩
    · rcases hgl : (groupEvents
          (filtered_events raw.events raw.event_id)).getLast? with _ | e
      · rw [trailVals, hgl] at hp2
        exact absurd hp2 (by simp)
      · rw [trailVals, hgl] at hp2
        have hpe : p.2 = ⟨(e.sample : ℚ) / raw.sfreq, raw.times_last,
            _simplify_segment_name e.name, "End",
            ((e.sample : ℚ) / raw.sfreq, none)⟩ := by simpa using hp2
        rcases groupEvents_name_mem _ e (List.mem_of_getLast?_eq_some hgl) with
          ⟨x, hx, hxn⟩
        exact ⟨raw, hr, x, hx, by rw [hpe, hxn]⟩

/-- Witness for C3: the "Артефакт" segment's label is the simplified name
of a retained event. -/
theorem claim_C3_no_exclusion_filter_witness :
    ∃ raw, (⟨[], some rawArtefact⟩ : SegState).raw = some raw ∧
      ∃ e ∈ filtered_events raw.events raw.event_id,
        (⟨0, 20, "Артефакт", "Background", (0, some 20)⟩ :
          Segment).current_event = _simplify_segment_name e.name :=
  claim_C3_no_exclusion_filter settings.MIN_SEGMENT_DURATION
    ⟨[], some rawArtefact⟩ artefactOut ["Starting processing..."] rfl
    ((processWith_settings _).trans artefact_eval)
    ("Артефакт", ⟨0, 20, "Артефакт", "Background", (0, some 20)⟩) (by decide)

/-- C6 counterexample: on an event list that is not sorted by sample
index the stored segments overlap: the output (already in start-time
order) contains adjacent segments [0,100] and [50,150]. -/
theorem claim_C6_counterexample :
    process ⟨[], some rawUnsorted⟩ =
      .ok (unsortedOut, ["Starting processing..."]) ∧
    unsortedOut.Chain' (fun a b => a.2.start_time ≤ b.2.start_time) ∧
    (⟨50, 150, "C", "D", (50, some 150)⟩ : Segment).start_time <
      (⟨0, 100, "A", "B", (0, some 100)⟩ : Segment).end_time ∧
    ("A", (⟨0, 100, "A", "B", (0, some 100)⟩ : Segment)) ∈ unsortedOut ∧
    ("C", (⟨50, 150, "C", "D", (50, some 150)⟩ : Segment)) ∈ unsortedOut :=
  ⟨unsorted_eval, by norm_num [unsortedOut, List.chain'_cons, List.chain'_singleton],
   by norm_num, by decide, by decide⟩

/-- C6 amended: under the additional hypothesis that the input events are
strictly sorted by sample index (and the sample rate is positive), the
stored segments are in strictly increasing start-time order and pairwise
non-overlapping in the adjacent sense. -/
theorem claim_C6_non_overlap (min_dur : ℚ) (st : SegState)
    (d : List (String × Segment)) (log : List String) (raw : Raw)
    (hsd : st.seg_dict = []) (hr : st.raw = some raw) (hsf : 0 < raw.sfreq)
    (hp : raw.events.Pairwise (fun a b => a.sample < b.sample))
    (h : processWith min_dur st = .ok (d, log)) :
    d.Chain' (fun a b => a.2.end_time ≤ b.2.start_time) ∧
    d.Chain' (fun a b => a.2.start_time < b.2.start_time) := by
  rcases processWith_ok_shape min_dur st d log h with ⟨t, het, _, hv⟩
  rw [hsd] at het
  simp only [List.nil_append] at het
  subst het
  rcases hv with rfl | ⟨raw', hr', hvals⟩
  · exact ⟨List.chain'_nil, List.chain'_nil⟩
  · have hraw : raw' = raw := by
      rw [hr] at hr'
      exact (Option.some.inj hr').symm
    subst hraw
    have hge : (groupEvents (filtered_events raw'.events raw'.event_id)).Pairwise
        (fun a b => a.sample < b.sample) :=
      groupEvents_pairwise _ (filtered_events_pairwise _ _ hp)
    have hchain := segVals_chain raw'.sfreq min_dur raw'.times_last hsf _ hge
    rw [← hvals, List.chain'_map] at hchain
    exact ⟨hchain.imp (fun a b hab => hab.1), hchain.imp (fun a b hab => hab.2)⟩

/-- Witness for C6 at the sorted two-event recording. -/
theorem claim_C6_non_overlap_witness :
    twoEventsOut.Chain' (fun a b => a.2.end_time ≤ b.2.start_time) ∧
    twoEventsOut.Chain' (fun a b => a.2.start_time < b.2.start_time) :=
  claim_C6_non_overlap settings.MIN_SEGMENT_DURATION ⟨[], some rawTwoEvents⟩
    twoEventsOut ["Starting processing..."] rawTwoEvents rfl rfl (by decide)
    (by decide) ((processWith_settings _).trans twoEvents_eval)

end EdfSegmentor

/-! ## Claims about core/event_processor.py -/

theorem append_append_hz_ne_empty (a b : String) : a ++ b ++ "Hz" ≠ "" := by
  intro h
  have hlen := congrArg String.length h
  rw [String.length_append, String.length_append] at hlen
  have h2 : ("Hz" : String).length = 2 := rfl
  have h0 : ("" : String).length = 0 := rfl
  rw [h2, h0] at hlen
  omega

theorem translateLoop_ne_empty :
    ∀ (l : List (String × String)), (∀ p ∈ l, p.2 ≠ "") →
      ∀ (name cleaned r : String),
        EventProcessor.translateLoop name cleaned l = some r → r ≠ "" := by
  intro l
  induction l with
  | nil =>
    intro _ name cleaned r h
    exact absurd h (by simp [EventProcessor.translateLoop])
  | cons p rest ih =>
    intro hne name cleaned r h
    obtain ⟨ru, en⟩ := p
    rw [EventProcessor.translateLoop] at h
    by_cases hru : strIn ru cleaned = true
    · rw [if_pos hru] at h
      have hen : en ≠ "" := hne (ru, en) (List.mem_cons_self _ _)
      by_cases hph : (strIn "Photic" en || strIn "Auditory" en) = true
      · rw [if_pos hph] at h
        cases htone : findTone name.data with
        | some ds =>
          rw [htone] at h
          have : r = en ++ ⟨ds⟩ ++ "Hz" := by
            have := h.symm
            simpa using this
          rw [this]
          exact append_append_hz_ne_empty en ⟨ds⟩
        | none =>
          rw [htone] at h
          cases hfreq : findFreq name.data with
          | some ds =>
            rw [hfreq] at h
            have : r = en ++ ⟨ds⟩ ++ "Hz" := by
              have := h.symm
              simpa using this
            rw [this]
            exact append_append_hz_ne_empty en ⟨ds⟩
          | none =>
            rw [hfreq] at h
            have : r = en := by
              have := h.symm
              simpa using this
            rw [this]
            exact hen
      · rw [if_neg hph] at h
        have : r = en := by
          have := h.symm
          simpa using this
        rw [this]
        exact hen
    · rw [if_neg hru] at h
      exact ih (fun q hq => hne q (List.mem_cons_of_mem _ hq)) name cleaned r h

theorem clean_event_name_total (s : String) :
    EventProcessor._clean_event_name s = none ∨
    ∃ t, EventProcessor._clean_event_name s = some t ∧ t ≠ "" := by
  simp only [EventProcessor._clean_event_name]
  by_cases hex : pyStrip ⟨removeBrackets s.data⟩ ∈ EventProcessor.EXCLUDED_NAMES ∨
      s ∈ EventProcessor.EXCLUDED_NAMES
  · rw [if_pos hex]
    exact Or.inl rfl
  · rw [if_neg hex]
    by_cases hemp : pyStrip ⟨removeBrackets s.data⟩ = ""
    · rw [if_pos hemp]
      right
      refine ⟨_, rfl, ?_⟩
      by_cases hs : s = ""
      · rw [if_pos hs]
        decide
      · rw [if_neg hs]
        exact hs
    · rw [if_neg hemp]
      cases htl : EventProcessor.translateLoop s (pyStrip ⟨removeBrackets s.data⟩)
          EventProcessor.TRANSLATIONS with
      | some r =>
        right
        exact ⟨r, rfl, translateLoop_ne_empty EventProcessor.TRANSLATIONS
          (by decide) _ _ _ htl⟩
      | none =>
        right
        exact ⟨_, rfl, hemp⟩

/-- C10: the normalizer is total and never returns an empty name: for every
input string `_clean_event_name` returns `none` (excluded) or a non-empty
string, and consequently `get_event_name` returns `none` or a non-empty
string for every code and code table. -/
theorem claim_C10_normalizer_total :
    (∀ s : String,
      EventProcessor._clean_event_name s = none ∨
      ∃ t, EventProcessor._clean_event_name s = some t ∧ t ≠ "") ∧
    (∀ (code : ℕ) (ev_id : List (String × ℕ)),
      EventProcessor.get_event_name code ev_id = none ∨
      ∃ t, EventProcessor.get_event_name code ev_id = some t ∧ t ≠ "") :=
  ⟨clean_event_name_total, fun code ev_id => by
    have h := clean_event_name_total
      (((ev_id.find? (fun p => p.2 == code)).map Prod.fst).getD "Unknown")
    simpa [EventProcessor.get_event_name] using h⟩

theorem translateLoop_photic_freq (name cleaned : String) :
    ∀ (l : List (String × String)) (ru en : String),
      l.find? (fun p => strIn p.1 cleaned) = some (ru, en) →
      (strIn "Photic" en || strIn "Auditory" en) = true →
      (∀ ds, findTone name.data = some ds →
        EventProcessor.translateLoop name cleaned l = some (en ++ ⟨ds⟩ ++ "Hz")) ∧
      (findTone name.data = none → ∀ ds, findFreq name.data = some ds →
        EventProcessor.translateLoop name cleaned l = some (en ++ ⟨ds⟩ ++ "Hz")) := by
  intro l
  induction l with
  | nil => intro ru en h; exact absurd h (by simp)
  | cons p rest ih =>
    intro ru en hfind hph
    obtain ⟨ru', en'⟩ := p
    by_cases hru : strIn ru' cleaned = true
    · have hpe : ru' = ru ∧ en' = en := by
        rw [List.find?_cons_of_pos _ (by simpa using hru)] at hfind
        have := Option.some.inj hfind
        exact ⟨congrArg Prod.fst this, congrArg Prod.snd this⟩
      obtain ⟨rfl, rfl⟩ := hpe
      constructor
      · intro ds htone
        rw [EventProcessor.translateLoop, if_pos hru, if_pos hph, htone]
      · intro htone ds hfreq
        rw [EventProcessor.translateLoop, if_pos hru, if_pos hph, htone, hfreq]
    · rw [List.find?_cons_of_neg _ (by simpa using hru)] at hfind
      rcases ih ru en hfind hph with ⟨h1, h2⟩
      constructor
      · intro ds htone
        rw [EventProcessor.translateLoop, if_neg hru]
        exact h1 ds htone
      · intro htone ds hfreq
        rw [EventProcessor.translateLoop, if_neg hru]
        exact h2 htone ds hfreq

set_option maxHeartbeats 2000000 in
/-- C9: when the first matching translation entry is a photic/auditory
tag, the normalizer's loop appends the extracted frequency, with the
tone-qualified pattern taking precedence over the generic one; in
particular the raw label "Встроенный фотостимулятор оба, 50 мс, 4 Гц"
normalizes to "Photic4Hz". -/
theorem claim_C9_frequency_suffix :
    (∀ (name cleaned : String) (l : List (String × String)) (ru en : String),
      l.find? (fun p => strIn p.1 cleaned) = some (ru, en) →
      (strIn "Photic" en || strIn "Auditory" en) = true →
      (∀ ds, findTone name.data = some ds →
        EventProcessor.translateLoop name cleaned l = some (en ++ ⟨ds⟩ ++ "Hz")) ∧
      (findTone name.data = none → ∀ ds, findFreq name.data = some ds →
        EventProcessor.translateLoop name cleaned l = some (en ++ ⟨ds⟩ ++ "Hz"))) ∧
    EventProcessor._clean_event_name "Встроенный фотостимулятор оба, 50 мс, 4 Гц" =
      some "Photic4Hz" :=
  ⟨translateLoop_photic_freq, by decide⟩

set_option maxHeartbeats 2000000 in
/-- Witness for C9: the scenario-E label exercises the generic-frequency
branch of the general statement. -/
theorem claim_C9_frequency_suffix_witness :
    EventProcessor.translateLoop "Встроенный фотостимулятор оба, 50 мс, 4 Гц"
      "Встроенный фотостимулятор оба, 50 мс, 4 Гц" EventProcessor.TRANSLATIONS =
      some ("Photic" ++ ⟨['4']⟩ ++ "Hz") :=
  ((claim_C9_frequency_suffix.1 "Встроенный фотостимулятор оба, 50 мс, 4 Гц"
    "Встроенный фотостимулятор оба, 50 мс, 4 Гц" EventProcessor.TRANSLATIONS
    "Встроенный фотостимулятор" "Photic" (by decide) (by decide)).2
    (by decide) ['4'] (by decide))

/-- C8: the allocator never returns a used name; an unused candidate is
returned unchanged; a null candidate is treated as "Unknown"; a used
candidate gets the first unused integer suffix `_1`, `_2`, …. -/
theorem claim_C8_allocator (base_name : Option String) (used : List String) :
    EventProcessor.generate_segment_name base_name used ∉ used ∧
    (∀ s, base_name = some s → s ∉ used →
      EventProcessor.generate_segment_name base_name used = s) ∧
    (EventProcessor.generate_segment_name none used =
      EventProcessor.generate_segment_name (some "Unknown") used) ∧
    (∀ base, base = base_name.getD "Unknown" → base ∈ used →
      ∃ k, 1 ≤ k ∧
        EventProcessor.generate_segment_name base_name used = fmtName base k ∧
        fmtName base k ∉ used ∧
        ∀ j, 1 ≤ j → j < k → fmtName base j ∈ used) := by
  refine ⟨?_, ?_, rfl, ?_⟩
  · exact gsn_loop_not_mem (base_name.getD "Unknown") used
  · intro s hbn hs
    rw [hbn]
    show (if s ∈ used then gsnAux s used used.length 1 else s) = s
    rw [if_neg hs]
  · intro base hbase hmem
    rcases exists_free_counter base used hmem with ⟨j, h1, h2, h3⟩
    rcases gsnAux_first_free base used used.length 1 ⟨j, h1, by omega, h3⟩ with
      ⟨k, hk1, hk2, hk3, hk4⟩
    refine ⟨k, hk1, ?_, hk3, fun j' hj1 hj2 => hk4 j' hj1 hj2⟩
    show (if base_name.getD "Unknown" ∈ used then
      gsnAux (base_name.getD "Unknown") used used.length 1
      else base_name.getD "Unknown") = fmtName base k
    rw [← hbase, if_pos hmem]
    exact hk2

/-- Witness for C8: a used candidate "A" against `["A", "A_2"]` is
disambiguated to the first free suffix, and an unused candidate is
returned unchanged. -/
theorem claim_C8_allocator_witness :
    EventProcessor.generate_segment_name (some "A") ["A", "A_2"] ∉ ["A", "A_2"] ∧
    EventProcessor.generate_segment_name (some "B") ["A", "A_2"] = "B" ∧
    ∃ k, 1 ≤ k ∧
      EventProcessor.generate_segment_name (some "A") ["A", "A_2"] = fmtName "A" k ∧
      fmtName "A" k ∉ ["A", "A_2"] ∧
      ∀ j, 1 ≤ j → j < k → fmtName "A" j ∈ ["A", "A_2"] :=
  ⟨(claim_C8_allocator (some "A") ["A", "A_2"]).1,
   (claim_C8_allocator (some "B") ["A", "A_2"]).2.1 "B" rfl (by decide),
   (claim_C8_allocator (some "A") ["A", "A_2"]).2.2.2 "A" rfl (by decide)⟩

end EDF
